import Mathlib

/-!
Verification development for the Safle batch-transaction repository.

The development shallowly embeds:
* the Solidity contract `BatchTransactionContract` (functions `executeBatch`
  and `withdraw`) as state-transition functions over an explicit EVM-like
  state (balances, storage, event log), with external calls modelled by an
  arbitrary `World` function and Solidity revert modelled by an `Except`
  result that the transaction wrapper discards (full rollback);
* the JavaScript SDK class `BatchTransactionSDK` (pending transaction list,
  per-token approval accumulator, and `executeBatchTransaction`) as pure
  functions over an explicit SDK state, with the network modelled by an
  oracle and every RPC submission recorded in an event trace.
-/

namespace BatchTx

/-- Account addresses, modelled as natural numbers. -/
abbrev Addr := Nat

/-- Opaque byte strings (calldata, return data), modelled as lists of bytes. -/
abbrev Bytes := List Nat

/-- The `OperationExecuted(address target, bool success, bytes data)` event
emitted by the contract after each successful sub-call. -/
structure OperationExecuted where
  target : Addr
  success : Bool
  data : Bytes
deriving DecidableEq, Repr

/-- EVM-like chain state: native balances, per-contract storage and the
global event log. -/
structure EvmState where
  balances : Addr → Nat
  storage : Addr → Nat → Nat
  events : List OperationExecuted

/-- Move `amt` of native value from `src` to `dst` (callers establish
`amt ≤ balances src` before using this). -/
def transfer (s : EvmState) (src dst : Addr) (amt : Nat) : EvmState :=
  { s with balances := fun a =>
      if a = dst then (if a = src then s.balances a - amt else s.balances a) + amt
      else if a = src then s.balances a - amt else s.balances a }

/-- Behaviour of the outside world for an external call
`target.call{value: amt}(payload)` executed from state `s` (the state already
reflects the value transfer): success flag, return data, and resulting state. -/
abbrev World := Addr → Bytes → Nat → EvmState → Bool × Bytes × EvmState

/-- Solidity errors: `require`/`revert` with a string reason produce an
`Error(string)` payload; this is the only error shape the contract uses. -/
inductive BatchError where
  | revertMsg (msg : String)
deriving DecidableEq, Repr

/-- One low-level external call `target.call{value: amt}(payload)` made by the
executor `self`: the EVM first moves `amt` from `self` to `target` (failing the
call outright when the balance is insufficient), then the callee runs. -/
def doCall (w : World) (self target : Addr) (payload : Bytes) (amt : Nat)
    (s : EvmState) : Bool × Bytes × EvmState :=
  if amt ≤ s.balances self then
    w target payload amt (transfer s self target amt)
  else
    (false, [], s)

/-- Zip the three calldata arrays of `executeBatch` into sub-call triples. -/
def zip3 : List Addr → List Bytes → List Nat → List (Addr × Bytes × Nat)
  | t :: ts, d :: ds, a :: amts => (t, d, a) :: zip3 ts ds amts
  | _, _, _ => []

/-- The loop body of `executeBatch` (source lines 33-47): perform each call in
order, revert the whole batch on the first failure with the fixed string
message, and emit one `OperationExecuted` event after each successful call. -/
def runCalls (w : World) (self : Addr) :
    List (Addr × Bytes × Nat) → EvmState →
    Except BatchError (List Bool × List Bytes × EvmState)
  | [], s => .ok ([], [], s)
  | (t, d, a) :: rest, s =>
    match doCall w self t d a s with
    | (false, _, _) =>
      .error (.revertMsg "One of the transactions failed. Reverting all transactions.")
    | (true, res, s1) =>
      let s2 := { s1 with events := s1.events ++ [⟨t, true, res⟩] }
      match runCalls w self rest s2 with
      | .ok (ss, rs, s3) => .ok (true :: ss, res :: rs, s3)
      | .error e => .error e

/-- The body of `BatchTransactionContract.executeBatch`, running in state `s0`
(which already includes the `msg.value` deposit from `sender`): length checks,
the call loop, the final balance accounting and the refund of unspent value. -/
def executeBatch (w : World) (self sender : Addr) (msgValue : Nat)
    (targets : List Addr) (data : List Bytes) (amount : List Nat)
    (s0 : EvmState) : Except BatchError (List Bool × List Bytes × EvmState) :=
  if targets.length ≠ data.length then .error (.revertMsg "Mismatched inputs")
  else if targets.length ≠ amount.length then .error (.revertMsg "Mismatched inputs")
  else
    let initialBalance := s0.balances self - msgValue
    match runCalls w self (zip3 targets data amount) s0 with
    | .error e => .error e
    | .ok (success, results, s1) =>
      let finalBalance := s1.balances self
      if initialBalance > finalBalance then
        .error (.revertMsg "ETH exceeded: Insufficient funds for transactions")
      else
        let difference := finalBalance - initialBalance
        if difference > 0 then
          .ok (success, results, transfer s1 self sender difference)
        else
          .ok (success, results, s1)

/-- A full external call of `executeBatch` from `sender` carrying `msgValue`:
the EVM deposits the attached value into the contract, then the body runs. -/
def executeBatchCall (w : World) (sender self : Addr) (msgValue : Nat)
    (targets : List Addr) (data : List Bytes) (amount : List Nat)
    (pre : EvmState) : Except BatchError (List Bool × List Bytes × EvmState) :=
  executeBatch w self sender msgValue targets data amount
    (transfer pre sender self msgValue)

/-- Transaction-level semantics: a revert rolls the whole transaction back, so
on error the committed state is the pre-call state; on success the produced
state commits. Returns the outcome visible to the caller and the committed
chain state. -/
def executeBatchOuter (w : World) (sender self : Addr) (msgValue : Nat)
    (targets : List Addr) (data : List Bytes) (amount : List Nat)
    (pre : EvmState) : Except BatchError (List Bool × List Bytes) × EvmState :=
  match executeBatchCall w sender self msgValue targets data amount pre with
  | .ok (success, results, s) => (.ok (success, results), s)
  | .error e => (.error e, pre)

/-- The contract function `withdraw()` (source lines 68-72), called by
`caller`: requires a positive balance and transfers all of it to the caller. -/
def withdraw (self caller : Addr) (s : EvmState) :
    Except BatchError (Unit × EvmState) :=
  let balance := s.balances self
  if balance = 0 then .error (.revertMsg "No funds to withdraw")
  else .ok ((), transfer s self caller balance)

/-! ### The JavaScript SDK (`BatchTransactionSDK` in sdk/index.js) -/

/-- One entry of the pending transaction list: a `{ target, value, data }`
object. -/
structure Txn where
  target : Addr
  value : Nat
  data : Bytes
deriving DecidableEq, Repr

/-- The mutable state of one `BatchTransactionSDK` instance: the pending
`transactionList` and the `approvalTransactionsList` object mapping a token
address to its accumulated required approval (an insertion-ordered map, as a
JavaScript object of BigNumbers is). -/
structure SDKState where
  transactionList : List Txn
  approvalTransactionsList : List (Addr × Nat)
deriving DecidableEq, Repr

/-- Accumulated required approval recorded for `token` (0 when absent). -/
def lookupApproval : List (Addr × Nat) → Addr → Nat
  | [], _ => 0
  | (t, a) :: rest, token => if t = token then a else lookupApproval rest token

/-- Add `v` to the accumulated approval of `token`, creating the entry at the
end when missing (the JS `if (!list[token]) list[token] = 0; list[token] =
list[token].plus(value)` pattern). -/
def bumpApproval : List (Addr × Nat) → Addr → Nat → List (Addr × Nat)
  | [], token, v => [(token, v)]
  | (t, a) :: rest, token, v =>
    if t = token then (t, a + v) :: rest else (t, a) :: bumpApproval rest token v

/-- `addTransactionToList(target, value, data)`: push the triple unless an
entry equal in all three fields is already present. -/
def addTransactionToList (s : SDKState) (target : Addr) (value : Nat)
    (data : Bytes) : SDKState :=
  let t : Txn := ⟨target, value, data⟩
  if t ∈ s.transactionList then s
  else { s with transactionList := s.transactionList ++ [t] }

/-- `removeTransactionFromList(target, value, data)`: keep exactly the entries
differing from the triple in at least one field. -/
def removeTransactionFromList (s : SDKState) (target : Addr) (value : Nat)
    (data : Bytes) : SDKState :=
  { s with transactionList :=
      s.transactionList.filter (fun tx => ¬(tx = ⟨target, value, data⟩)) }

/-- `clearTransactionList()`: drop every pending transaction. -/
def clearTransactionList (s : SDKState) : SDKState :=
  { s with transactionList := [] }

/-- ABI encoding of `transferFrom(owner, to, value)`, abstracted to an
injective tagged tuple. -/
def encodeTransferFrom (owner dst : Addr) (value : Nat) : Bytes :=
  [0, owner, dst, value]

/-- ABI encoding of `approve(spender, value)`, abstracted to an injective
tagged tuple. -/
def encodeApprove (spender : Addr) (value : Nat) : Bytes :=
  [1, spender, value]

/-- `addERC20Transfer(tokenAddress, target, value)`: bump the token's
accumulated approval by `value`, then add a `transferFrom(signer, target,
value)` call on the token with 0 attached value. -/
def addERC20Transfer (signer : Addr) (s : SDKState) (tokenAddress target : Addr)
    (value : Nat) : SDKState :=
  let s1 := { s with approvalTransactionsList :=
      (bumpApproval s.approvalTransactionsList tokenAddress value) }
  addTransactionToList s1 tokenAddress 0 (encodeTransferFrom signer target value)

/-- `addERC20Approve(tokenAddress, target, value)`: bump the token's
accumulated approval by `value`, then add an `approve(target, value)` call on
the token with 0 attached value. -/
def addERC20Approve (s : SDKState) (tokenAddress target : Addr)
    (value : Nat) : SDKState :=
  let s1 := { s with approvalTransactionsList :=
      (bumpApproval s.approvalTransactionsList tokenAddress value) }
  addTransactionToList s1 tokenAddress 0 (encodeApprove target value)

/-- Network oracle for one run of `executeBatchTransaction`: current on-chain
allowances, and whether each RPC submission or the final confirmation wait
succeeds. -/
structure Chain where
  allowance : Addr → Addr → Addr → Nat
  approveOk : Addr → Nat → Bool
  batchOk : Bool
  waitOk : Bool

/-- Observable network actions of the SDK, in submission order. A
`waitConfirm` records an explicit wait for a transaction to be mined (the
`tx.wait()` idiom); the alphabet has a constructor for waiting on an approval
transaction so that its absence from actual traces is expressible. -/
inductive NetEvent where
  | submitApprove (token : Addr) (amount : Nat)
  | waitApprove (token : Addr)
  | submitBatch (targets : List Addr) (data : List Bytes) (values : List Nat)
      (totalValue : Nat)
  | waitBatch
deriving DecidableEq, Repr

/-- Errors surfaced by `executeBatchTransaction`. -/
inductive SDKError where
  | emptyList
  | approveFailed (token : Addr)
  | batchSubmitFailed
  | waitFailed
deriving DecidableEq, Repr

/-- The approval phase of `executeBatchTransaction`: for every token of the
accumulator whose current allowance for the batch contract is below the
accumulated requirement, submit one `approve` for the full accumulated amount.
The promises are awaited (`Promise.all`) before the batch is submitted, but no
`wait()` is performed on any approval transaction. -/
def processApprovals (signer batchAddr : Addr) (net : Chain) :
    List (Addr × Nat) → Option SDKError × List NetEvent
  | [] => (none, [])
  | (token, required) :: rest =>
    if net.allowance token signer batchAddr < required then
      if net.approveOk token required then
        let (e, evs) := processApprovals signer batchAddr net rest
        (e, .submitApprove token required :: evs)
      else
        (some (.approveFailed token), [.submitApprove token required])
    else
      processApprovals signer batchAddr net rest

/-- The one batch submission of `executeBatchTransaction`: the three arrays
mapped out of the pending list plus the sum of the listed values as attached
value. -/
def submitBatchEvent (s : SDKState) : NetEvent :=
  .submitBatch (s.transactionList.map (fun tx => tx.target))
    (s.transactionList.map (fun tx => tx.data))
    (s.transactionList.map (fun tx => tx.value))
    ((s.transactionList.map (fun tx => tx.value)).foldl (· + ·) 0)

/-- The batch phase of `executeBatchTransaction`, run after all approval
promises resolved: submit the batch call, wait for it (`tx.wait()`), and only
then clear the pending list; on failure the state is returned as it stands. -/
def batchPhase (net : Chain) (s : SDKState) (evs : List NetEvent) :
    Option SDKError × SDKState × List NetEvent :=
  if net.batchOk then
    if net.waitOk then
      (none, clearTransactionList s, evs ++ [submitBatchEvent s, .waitBatch])
    else
      (some .waitFailed, s, evs ++ [submitBatchEvent s])
  else
    (some .batchSubmitFailed, s, evs)

/-- `executeBatchTransaction()`: reject an empty list; run the approval phase;
submit one `executeBatch` carrying the whole pending list and the sum of its
values as attached value; wait for it; only then clear the pending list. Any
failure is thrown with the state as it stands at that point (nothing was
mutated before the clear). Returns the error (if any), the state after the
call, and the trace of network actions. -/
def executeBatchTransaction (signer batchAddr : Addr) (net : Chain)
    (s : SDKState) : Option SDKError × SDKState × List NetEvent :=
  if s.transactionList = [] then (some .emptyList, s, [])
  else
    match processApprovals signer batchAddr net s.approvalTransactionsList with
    | (some e, evs) => (some e, s, evs)
    | (none, evs) => batchPhase net s evs

/-- Whether an event is the submission of the batch call. -/
def isSubmitBatch : NetEvent → Bool
  | .submitBatch _ _ _ _ => true
  | _ => false

/-- The prefix of a trace strictly before the first batch submission. -/
def beforeBatch (tr : List NetEvent) : List NetEvent :=
  tr.takeWhile (fun e => !isSubmitBatch e)

/-- Formalisation of the specification sentence for claim C4: every approval
submitted before the batch has been waited for (confirmed, effect visible)
before the batch call is submitted. -/
def ApprovalsConfirmedBeforeBatch (tr : List NetEvent) : Prop :=
  ∀ e ∈ beforeBatch tr, ∀ token amount, e = NetEvent.submitApprove token amount →
    NetEvent.waitApprove token ∈ beforeBatch tr

/-- The public mutating operations of the SDK, for stating invariants over
arbitrary operation sequences. -/
inductive SDKOp where
  | addTx (target : Addr) (value : Nat) (data : Bytes)
  | addTransfer (signer tokenAddress target : Addr) (value : Nat)
  | addApprove (tokenAddress target : Addr) (value : Nat)
  | removeTx (target : Addr) (value : Nat) (data : Bytes)
  | clearList
  | execute (signer batchAddr : Addr) (net : Chain)

/-- State reached after one SDK operation (for `execute`, the state after the
call whether it threw or not). -/
def applySDKOp : SDKOp → SDKState → SDKState
  | .addTx target value data, s => addTransactionToList s target value data
  | .addTransfer signer token target value, s =>
    addERC20Transfer signer s token target value
  | .addApprove token target value, s =>
    addERC20Approve s token target value
  | .removeTx target value data, s => removeTransactionFromList s target value data
  | .clearList, s => clearTransactionList s
  | .execute signer batchAddr net, s =>
    (executeBatchTransaction signer batchAddr net s).2.1

/-! ### Concrete fixtures used by witnesses and counterexamples -/

/-- A world in which every call succeeds, returns no data and leaves the
state as received. -/
def okWorld : World := fun _ _ _ s => (true, [], s)

/-- A world in which every call fails with revert data `[9]`. -/
def failWorld : World := fun _ _ _ s => (false, [9], s)

/-- A world in which calls to address 5 fail with revert data `[7]` and all
other calls succeed. -/
def failWorld5 : World := fun t _ _ s =>
  if t = 5 then (false, [7], s) else (true, [], s)

/-- A concrete pre-state: address 1 holds 100 wei, all other balances, all
storage and the event log are empty. -/
def preC : EvmState :=
  { balances := fun a => if a = 1 then 100 else 0
    storage := fun _ _ => 0
    events := [] }

/-- The state component of a contract-call result (the default is returned in
the error case, which witnesses never hit). -/
def okState (r : Except BatchError (List Bool × List Bytes × EvmState))
    (dflt : EvmState) : EvmState :=
  match r with
  | .ok (_, _, s) => s
  | .error _ => dflt

/-- A network oracle with zero allowances on which every submission and wait
succeeds. -/
def netC : Chain :=
  { allowance := fun _ _ _ => 0
    approveOk := fun _ _ => true
    batchOk := true
    waitOk := true }

/-- A network oracle identical to `netC` except that the batch submission is
rejected. -/
def netCFail : Chain :=
  { allowance := fun _ _ _ => 0
    approveOk := fun _ _ => true
    batchOk := false
    waitOk := true }

/-- An SDK state with one pending call and one token requiring approval 5. -/
def sC : SDKState :=
  { transactionList := [⟨7, 0, [1, 9, 3]⟩]
    approvalTransactionsList := [(9, 5)] }

/-- An SDK state whose pending list already holds the triple `(1, 2, [3])`. -/
def dupState : SDKState :=
  { transactionList := [⟨1, 2, [3]⟩]
    approvalTransactionsList := [] }

/-- An SDK state with an empty pending list and no recorded approvals. -/
def emptySDK : SDKState :=
  { transactionList := []
    approvalTransactionsList := [] }

/-! ### Basic lemmas about `transfer` -/

theorem transfer_events (s : EvmState) (src dst : Addr) (amt : Nat) :
    (transfer s src dst amt).events = s.events := rfl

theorem transfer_storage (s : EvmState) (src dst : Addr) (amt : Nat) :
    (transfer s src dst amt).storage = s.storage := rfl

theorem transfer_balances_dst (s : EvmState) (src dst : Addr) (amt : Nat)
    (hne : dst ≠ src) :
    (transfer s src dst amt).balances dst = s.balances dst + amt := by
  simp [transfer, hne]

theorem transfer_balances_src (s : EvmState) (src dst : Addr) (amt : Nat)
    (hne : src ≠ dst) :
    (transfer s src dst amt).balances src = s.balances src - amt := by
  simp [transfer, hne]

theorem transfer_balances_other (s : EvmState) (src dst a : Addr) (amt : Nat)
    (h1 : a ≠ src) (h2 : a ≠ dst) :
    (transfer s src dst amt).balances a = s.balances a := by
  simp [transfer, h1, h2]

/-! ### Claim theorems -/

/-- C1: if any sub-call of `executeBatch` fails (or the call reverts for any
other reason), the entire batch is rolled back: the committed chain state
after the transaction — balances, storage, and the event log — is identical
to the state before the call, with no partial commit of earlier successful
sub-calls, and the caller observes the error. -/
theorem executeBatch_atomic_rollback
    (w : World) (sender self : Addr) (msgValue : Nat)
    (targets : List Addr) (data : List Bytes) (amount : List Nat)
    (pre : EvmState) (e : BatchError)
    (h : executeBatchCall w sender self msgValue targets data amount pre
      = .error e) :
    (executeBatchOuter w sender self msgValue targets data amount pre).2.balances
        = pre.balances ∧
    (executeBatchOuter w sender self msgValue targets data amount pre).2.storage
        = pre.storage ∧
    (executeBatchOuter w sender self msgValue targets data amount pre).2.events
        = pre.events ∧
    (executeBatchOuter w sender self msgValue targets data amount pre).1
        = .error e := by
  unfold executeBatchOuter
  rw [h]
  exact ⟨rfl, rfl, rfl, rfl⟩

/-- Witness for C1: a concrete batch whose only sub-call fails, after which
the committed state is exactly the pre-state. -/
theorem executeBatch_atomic_rollback_witness :
    (executeBatchOuter failWorld 1 2 0 [3] [[0]] [0] preC).2.balances
        = preC.balances ∧
    (executeBatchOuter failWorld 1 2 0 [3] [[0]] [0] preC).2.storage
        = preC.storage ∧
    (executeBatchOuter failWorld 1 2 0 [3] [[0]] [0] preC).2.events
        = preC.events ∧
    (executeBatchOuter failWorld 1 2 0 [3] [[0]] [0] preC).1
        = .error (.revertMsg
            "One of the transactions failed. Reverting all transactions.") :=
  executeBatch_atomic_rollback failWorld 1 2 0 [3] [[0]] [0] preC
    (.revertMsg "One of the transactions failed. Reverting all transactions.")
    rfl

/-- C5: whenever `targets`, `data` and `amount` do not all have the same
length, `executeBatch` fails with the `Mismatched inputs` error — for every
world, so before any sub-call can execute — and commits no state change. -/
theorem executeBatch_length_check
    (w : World) (sender self : Addr) (msgValue : Nat)
    (targets : List Addr) (data : List Bytes) (amount : List Nat)
    (pre : EvmState)
    (h : ¬(targets.length = data.length ∧ targets.length = amount.length)) :
    executeBatchCall w sender self msgValue targets data amount pre
        = .error (.revertMsg "Mismatched inputs") ∧
    (executeBatchOuter w sender self msgValue targets data amount pre).2
        = pre := by
  have hcall : executeBatchCall w sender self msgValue targets data amount pre
      = .error (.revertMsg "Mismatched inputs") := by
    unfold executeBatchCall executeBatch
    by_cases h1 : targets.length = data.length
    · have h2 : targets.length ≠ amount.length := fun h2 => h ⟨h1, h2⟩
      have h2b : data.length ≠ amount.length := by
        rw [h1] at h2
        exact h2
      simp [h1, h2b]
    · simp [h1]
  refine ⟨hcall, ?_⟩
  unfold executeBatchOuter
  rw [hcall]

/-- Witness for C5: a concrete malformed batch (2 targets, 1 payload,
2 amounts) rejected with `Mismatched inputs` and no state change. -/
theorem executeBatch_length_check_witness :
    executeBatchCall okWorld 1 2 0 [3, 4] [[0]] [0, 0] preC
        = .error (.revertMsg "Mismatched inputs") ∧
    (executeBatchOuter okWorld 1 2 0 [3, 4] [[0]] [0, 0] preC).2 = preC :=
  executeBatch_length_check okWorld 1 2 0 [3, 4] [[0]] [0, 0] preC (by decide)

/-- C9: `withdraw()` is callable by any caller; with a zero executor balance
it fails with the `No funds to withdraw` error, and with a positive balance it
transfers the entire balance to the caller, leaving the executor at zero. -/
theorem withdraw_spec (self caller : Addr) (s : EvmState) (hne : caller ≠ self) :
    (s.balances self = 0 →
        withdraw self caller s = .error (.revertMsg "No funds to withdraw")) ∧
    (0 < s.balances self →
        ∃ s2, withdraw self caller s = .ok ((), s2) ∧
          s2.balances caller = s.balances caller + s.balances self ∧
          s2.balances self = 0) := by
  constructor
  · intro h0
    unfold withdraw
    simp [h0]
  · intro hpos
    have h0 : ¬ s.balances self = 0 := Nat.pos_iff_ne_zero.mp hpos
    refine ⟨transfer s self caller (s.balances self), ?_, ?_, ?_⟩
    · unfold withdraw
      simp [h0]
    · exact transfer_balances_dst s self caller (s.balances self) hne
    · rw [transfer_balances_src s self caller (s.balances self) (Ne.symm hne)]
      exact Nat.sub_self _

/-- Witness for C9: on `preC`, withdrawing from the empty account 2 fails with
`No funds to withdraw`, and caller 3 withdrawing from account 1 receives the
full 100 wei, leaving account 1 at zero. -/
theorem withdraw_spec_witness :
    withdraw 2 1 preC = .error (.revertMsg "No funds to withdraw") ∧
    ∃ s2, withdraw 1 3 preC = .ok ((), s2) ∧
      s2.balances 3 = preC.balances 3 + preC.balances 1 ∧
      s2.balances 1 = 0 :=
  ⟨(withdraw_spec 2 1 preC (by decide)).1 (by decide),
   (withdraw_spec 1 3 preC (by decide)).2 (by decide)⟩

/-- Every error produced by the sub-call loop is the one fixed string revert;
nothing about the failing index or its revert data is recorded. -/
theorem runCalls_error_msg (w : World) (self : Addr)
    (l : List (Addr × Bytes × Nat)) :
    ∀ (s : EvmState) (e : BatchError), runCalls w self l s = .error e →
      e = .revertMsg
        "One of the transactions failed. Reverting all transactions." := by
  induction l with
  | nil =>
    intro s e h
    simp [runCalls] at h
  | cons hd tl ih =>
    intro s e h
    obtain ⟨t, d, a⟩ := hd
    unfold runCalls at h
    rcases hdc : doCall w self t d a s with ⟨b, res, s1⟩
    rw [hdc] at h
    match b with
    | false =>
      simp at h
      exact h.symm
    | true =>
      simp only at h
      rcases hrec : runCalls w self tl
          { s1 with events := s1.events ++ [⟨t, true, res⟩] } with e2 | v
      · rw [hrec] at h
        simp at h
        rw [← h]
        exact ih _ _ hrec
      · obtain ⟨ss, rs, s3⟩ := v
        rw [hrec] at h
        simp at h

/-- Counterexample for C3: two batches failing at different sub-call indices
(index 0 with revert data `[9]`, index 1 with revert data `[7]`) raise the
very same error, so the raised error carries neither the failing index nor
the sub-call's revert data — it is one fixed revert string. -/
theorem subcall_error_counterexample :
    ∃ e : BatchError,
      executeBatchCall failWorld 1 2 0 [3] [[0]] [0] preC = .error e ∧
      executeBatchCall failWorld5 1 2 0 [4, 5] [[0], [1]] [0, 0] preC
        = .error e ∧
      e = .revertMsg
        "One of the transactions failed. Reverting all transactions." :=
  ⟨.revertMsg "One of the transactions failed. Reverting all transactions.",
    rfl, rfl, rfl⟩

/-- C3 amended: when a sub-call of a well-formed batch fails, `executeBatch`
reverts with the fixed message `One of the transactions failed. Reverting all
transactions.`, which carries neither the failing index nor that sub-call's
revert data. -/
theorem executeBatch_subcall_error_fixed
    (w : World) (sender self : Addr) (msgValue : Nat)
    (targets : List Addr) (data : List Bytes) (amount : List Nat)
    (pre : EvmState) (e : BatchError)
    (h1 : targets.length = data.length) (h2 : targets.length = amount.length)
    (hrun : runCalls w self (zip3 targets data amount)
        (transfer pre sender self msgValue) = .error e) :
    executeBatchCall w sender self msgValue targets data amount pre
      = .error (.revertMsg
          "One of the transactions failed. Reverting all transactions.") := by
  have hmsg := runCalls_error_msg w self (zip3 targets data amount) _ _ hrun
  unfold executeBatchCall executeBatch
  have h2b : data.length = amount.length := by
    rw [← h1]
    exact h2
  simp only [h1, h2, ne_eq, not_true_eq_false, if_false]
  rw [hrun, hmsg]
  simp [h2b]

/-- Witness for the amended C3: a concrete failing batch produces exactly the
fixed revert string. -/
theorem executeBatch_subcall_error_fixed_witness :
    executeBatchCall failWorld 1 2 0 [3] [[0]] [0] preC
      = .error (.revertMsg
          "One of the transactions failed. Reverting all transactions.") :=
  executeBatch_subcall_error_fixed failWorld 1 2 0 [3] [[0]] [0] preC
    (.revertMsg "One of the transactions failed. Reverting all transactions.")
    rfl rfl rfl

/-! ### Lemmas about the sub-call loop on success -/

theorem zip3_length (targets : List Addr) (data : List Bytes)
    (amount : List Nat) (h1 : targets.length = data.length)
    (h2 : targets.length = amount.length) :
    (zip3 targets data amount).length = targets.length := by
  induction targets generalizing data amount with
  | nil =>
    cases data with
    | nil => cases amount <;> simp [zip3]
    | cons d ds => simp at h1
  | cons t ts ih =>
    cases data with
    | nil => simp at h1
    | cons d ds =>
      cases amount with
      | nil => simp at h2
      | cons a amts =>
        simp [zip3]
        exact ih ds amts (by simpa using h1) (by simpa using h2)

theorem zipWith_zip3_fst (targets : List Addr) (data : List Bytes)
    (amount : List Nat) (rs : List Bytes)
    (h1 : targets.length = data.length)
    (h2 : targets.length = amount.length) :
    List.zipWith (fun p r => OperationExecuted.mk p.1 true r)
        (zip3 targets data amount) rs
      = List.zipWith (fun t r => OperationExecuted.mk t true r) targets rs := by
  induction targets generalizing data amount rs with
  | nil =>
    cases data with
    | nil => cases amount <;> simp [zip3]
    | cons d ds => simp at h1
  | cons t ts ih =>
    cases data with
    | nil => simp at h1
    | cons d ds =>
      cases amount with
      | nil => simp at h2
      | cons a amts =>
        cases rs with
        | nil => simp [zip3]
        | cons r rs2 =>
          simp [zip3]
          exact ih ds amts rs2 (by simpa using h1) (by simpa using h2)

theorem doCall_events (w : World) (self : Addr)
    (hev : ∀ t d a s, ((w t d a s).2.2).events = s.events)
    (t : Addr) (d : Bytes) (a : Nat) (s : EvmState) :
    ((doCall w self t d a s).2.2).events = s.events := by
  unfold doCall
  by_cases hle : a ≤ s.balances self
  · rw [if_pos hle, hev]
    rfl
  · rw [if_neg hle]

/-- When the sub-call loop succeeds and sub-calls emit no events of their own,
the outcome arrays have one (all-true) entry per triple and the event log is
extended by exactly one `OperationExecuted` per sub-call, in execution
order. -/
theorem runCalls_ok_events (w : World) (self : Addr)
    (hev : ∀ t d a s, ((w t d a s).2.2).events = s.events)
    (l : List (Addr × Bytes × Nat)) :
    ∀ (s : EvmState) (ss : List Bool) (rs : List Bytes) (s1 : EvmState),
      runCalls w self l s = .ok (ss, rs, s1) →
      ss = List.replicate l.length true ∧
      rs.length = l.length ∧
      s1.events = s.events ++
        List.zipWith (fun p r => OperationExecuted.mk p.1 true r) l rs := by
  induction l with
  | nil =>
    intro s ss rs s1 h
    simp [runCalls] at h
    obtain ⟨hss, hrs, hs1⟩ := h
    subst hss
    subst hrs
    subst hs1
    simp
  | cons hd tl ih =>
    intro s ss rs s1 h
    obtain ⟨t, d, a⟩ := hd
    unfold runCalls at h
    rcases hdc : doCall w self t d a s with ⟨b, res, sb⟩
    rw [hdc] at h
    match b with
    | false => exact Except.noConfusion h
    | true =>
      simp only at h
      rcases hrec : runCalls w self tl
          { sb with events := sb.events ++ [⟨t, true, res⟩] } with e | v
      · rw [hrec] at h
        exact Except.noConfusion h
      · obtain ⟨ss2, rs2, s3⟩ := v
        rw [hrec] at h
        simp only [Except.ok.injEq, Prod.mk.injEq] at h
        obtain ⟨hss, hrs, hs3⟩ := h
        obtain ⟨ih1, ih2, ih3⟩ := ih _ _ _ _ hrec
        have hsb : sb.events = s.events := by
          have hd2 := doCall_events w self hev t d a s
          rw [hdc] at hd2
          exact hd2
        subst hss
        subst hrs
        subst hs3
        refine ⟨by simp [ih1, List.replicate_succ], by simp [ih2], ?_⟩
        rw [ih3]
        simp [hsb, List.append_assoc]

/-- C6: for a well-formed batch in which every sub-call succeeds (and, as for
the real contract event log, sub-calls emit no events of their own), the
outcome arrays have exactly one entry per input triple, all success flags are
true, and the event log gains one `OperationExecuted(target, true, result)`
per sub-call, in execution order. -/
theorem executeBatch_ok_outcomes
    (w : World) (sender self : Addr) (msgValue : Nat)
    (targets : List Addr) (data : List Bytes) (amount : List Nat)
    (pre : EvmState) (ss : List Bool) (rs : List Bytes) (s2 : EvmState)
    (hev : ∀ t d a s, ((w t d a s).2.2).events = s.events)
    (hok : executeBatchCall w sender self msgValue targets data amount pre
      = .ok (ss, rs, s2)) :
    ss.length = targets.length ∧
    rs.length = targets.length ∧
    ss = List.replicate targets.length true ∧
    s2.events = pre.events ++
      List.zipWith (fun t r => OperationExecuted.mk t true r) targets rs := by
  unfold executeBatchCall executeBatch at hok
  by_cases h1 : targets.length = data.length
  case neg =>
    rw [if_pos h1] at hok
    exact Except.noConfusion hok
  by_cases h2 : targets.length = amount.length
  case neg =>
    rw [if_neg (not_not_intro h1), if_pos h2] at hok
    exact Except.noConfusion hok
  rw [if_neg (not_not_intro h1), if_neg (not_not_intro h2)] at hok
  rcases hrun : runCalls w self (zip3 targets data amount)
      (transfer pre sender self msgValue) with e | v
  · rw [hrun] at hok
    exact Except.noConfusion hok
  · obtain ⟨ss1, rs1, s1⟩ := v
    rw [hrun] at hok
    simp only at hok
    obtain ⟨hss1, hrs1, hsev⟩ :=
      runCalls_ok_events w self hev (zip3 targets data amount) _ _ _ _ hrun
    have hzl := zip3_length targets data amount h1 h2
    have heq : ss = ss1 ∧ rs = rs1 ∧
        (s2 = transfer s1 self sender
            (s1.balances self -
              ((transfer pre sender self msgValue).balances self - msgValue))
          ∨ s2 = s1) := by
      by_cases hins : (transfer pre sender self msgValue).balances self
          - msgValue > s1.balances self
      · rw [if_pos hins] at hok
        exact Except.noConfusion hok
      · rw [if_neg hins] at hok
        by_cases hdiff : s1.balances self -
            ((transfer pre sender self msgValue).balances self - msgValue) > 0
        · rw [if_pos hdiff] at hok
          simp only [Except.ok.injEq, Prod.mk.injEq] at hok
          exact ⟨hok.1.symm, hok.2.1.symm, Or.inl hok.2.2.symm⟩
        · rw [if_neg hdiff] at hok
          simp only [Except.ok.injEq, Prod.mk.injEq] at hok
          exact ⟨hok.1.symm, hok.2.1.symm, Or.inr hok.2.2.symm⟩
    obtain ⟨hsse, hrse, hs2⟩ := heq
    subst hsse
    subst hrse
    have hev2 : s2.events = s1.events := by
      rcases hs2 with h | h
      · rw [h, transfer_events]
      · rw [h]
    refine ⟨?_, ?_, ?_, ?_⟩
    · rw [hss1, List.length_replicate, hzl]
    · rw [hrs1, hzl]
    · rw [hss1, hzl]
    · rw [hev2, hsev, transfer_events]
      rw [zipWith_zip3_fst targets data amount rs h1 h2]

/-- Witness for C6: a concrete two-call batch on `okWorld` returning two
all-true outcomes and appending two `OperationExecuted` events in order. -/
theorem executeBatch_ok_outcomes_witness :
    ([true, true] : List Bool).length = ([3, 4] : List Addr).length ∧
    ([[], []] : List Bytes).length = ([3, 4] : List Addr).length ∧
    ([true, true] : List Bool) = List.replicate ([3, 4] : List Addr).length true ∧
    (okState (executeBatchCall okWorld 1 2 5 [3, 4] [[0], [1]] [1, 2] preC)
        preC).events
      = preC.events ++
        List.zipWith (fun t r => OperationExecuted.mk t true r)
          [3, 4] [[], []] :=
  executeBatch_ok_outcomes okWorld 1 2 5 [3, 4] [[0], [1]] [1, 2] preC
    [true, true] [[], []]
    (okState (executeBatchCall okWorld 1 2 5 [3, 4] [[0], [1]] [1, 2] preC) preC)
    (fun _ _ _ _ => rfl) rfl

/-! ### Lemmas about balance accounting in the sub-call loop -/

theorem zip3_mem_fst (targets : List Addr) (data : List Bytes)
    (amount : List Nat) (p : Addr × Bytes × Nat)
    (hp : p ∈ zip3 targets data amount) : p.1 ∈ targets := by
  induction targets generalizing data amount with
  | nil =>
    cases data <;> cases amount <;> simp [zip3] at hp
  | cons t ts ih =>
    cases data with
    | nil => simp [zip3] at hp
    | cons d ds =>
      cases amount with
      | nil => simp [zip3] at hp
      | cons a amts =>
        simp only [zip3, List.mem_cons] at hp
        rcases hp with hp | hp
        · subst hp
          simp
        · exact List.mem_cons_of_mem t (ih ds amts hp)

theorem zip3_map_amt (targets : List Addr) (data : List Bytes)
    (amount : List Nat) (h1 : targets.length = data.length)
    (h2 : targets.length = amount.length) :
    (zip3 targets data amount).map (fun p => p.2.2) = amount := by
  induction targets generalizing data amount with
  | nil =>
    cases data with
    | nil =>
      cases amount with
      | nil => simp [zip3]
      | cons a amts => simp at h2
    | cons d ds => simp at h1
  | cons t ts ih =>
    cases data with
    | nil => simp at h1
    | cons d ds =>
      cases amount with
      | nil => simp at h2
      | cons a amts =>
        simp only [zip3, List.map_cons, List.cons.injEq, true_and]
        exact ih ds amts (by simpa using h1) (by simpa using h2)

/-- When every sub-call succeeds and the called code never changes the
balances of the batch caller or of the executor on its own (beyond receiving
the attached value), the loop succeeds and spends exactly the sum of the
attached amounts from the executor, leaving the caller's balance alone. -/
theorem runCalls_ok_balances (w : World) (self sender : Addr)
    (hss : sender ≠ self)
    (hsucc : ∀ t d a s, (w t d a s).1 = true)
    (hbal : ∀ t d a s x, x = sender ∨ x = self →
        ((w t d a s).2.2).balances x = s.balances x)
    (l : List (Addr × Bytes × Nat))
    (hl : ∀ p ∈ l, p.1 ≠ sender ∧ p.1 ≠ self) :
    ∀ s : EvmState, (l.map (fun p => p.2.2)).sum ≤ s.balances self →
      ∃ rs s1, runCalls w self l s
          = .ok (List.replicate l.length true, rs, s1) ∧
        s1.balances self = s.balances self - (l.map (fun p => p.2.2)).sum ∧
        s1.balances sender = s.balances sender := by
  induction l with
  | nil =>
    intro s hle
    exact ⟨[], s, rfl, by simp, rfl⟩
  | cons hd tl ih =>
    intro s hle
    obtain ⟨t, d, a⟩ := hd
    have hts : t ≠ sender ∧ t ≠ self := hl (t, d, a) (by simp)
    have hsum : a + (tl.map (fun p => p.2.2)).sum ≤ s.balances self := by
      simpa using hle
    have ha : a ≤ s.balances self := le_trans (Nat.le_add_right _ _) hsum
    have hdc : doCall w self t d a s = w t d a (transfer s self t a) := by
      unfold doCall
      rw [if_pos ha]
    rcases hw : w t d a (transfer s self t a) with ⟨b, res, sb⟩
    have hb : b = true := by
      have hx := hsucc t d a (transfer s self t a)
      rw [hw] at hx
      exact hx
    subst hb
    have hself : sb.balances self = s.balances self - a := by
      have hx := hbal t d a (transfer s self t a) self (Or.inr rfl)
      rw [hw] at hx
      rw [hx, transfer_balances_src s self t a (Ne.symm hts.2)]
    have hsender : sb.balances sender = s.balances sender := by
      have hx := hbal t d a (transfer s self t a) sender (Or.inl rfl)
      rw [hw] at hx
      rw [hx, transfer_balances_other s self t sender a hss (Ne.symm hts.1)]
    have htl : ∀ p ∈ tl, p.1 ≠ sender ∧ p.1 ≠ self := by
      intro p hp
      exact hl p (List.mem_cons_of_mem _ hp)
    have hle2 : (tl.map (fun p => p.2.2)).sum ≤
        ({ sb with events := sb.events ++ [⟨t, true, res⟩] } : EvmState).balances
          self := by
      show (tl.map (fun p => p.2.2)).sum ≤ sb.balances self
      rw [hself]
      omega
    obtain ⟨rs1, s3, hrec, hs3self, hs3sender⟩ :=
      ih htl { sb with events := sb.events ++ [⟨t, true, res⟩] } hle2
    refine ⟨res :: rs1, s3, ?_, ?_, ?_⟩
    · unfold runCalls
      rw [hdc, hw]
      simp only
      rw [hrec]
      simp [List.replicate_succ]
    · rw [hs3self]
      show sb.balances self - (tl.map (fun p => p.2.2)).sum
          = s.balances self - (((t, d, a) :: tl).map (fun p => p.2.2)).sum
      rw [hself]
      simp only [List.map_cons, List.sum_cons]
      omega
    · rw [hs3sender]
      show sb.balances sender = s.balances sender
      exact hsender

theorem surplus_le_arith (bS v a : Nat) (h1 : a ≤ v) : bS ≤ bS + v - a := by
  omega

theorem surplus_refund_arith (bs bS v a : Nat) (h1 : a ≤ v) (h2 : v ≤ bs) :
    (bs - v) + ((bS + v - a) - bS) = bs - a := by
  omega

/-- C2: for a well-formed batch whose sub-calls all succeed, `executeBatch`
recomputes the executor's balance; when it falls below the pre-batch
reference balance the call fails with the `InsufficientFunds` revert and
commits nothing; otherwise the positive difference between current and
reference balance is transferred back to the caller, so that for sub-calls
that spend exactly their attached amounts with total not exceeding the
attached value, the caller recovers exactly the surplus (ends with
balance-before minus the sum of amounts). -/
theorem executeBatch_refund_accounting
    (w : World) (sender self : Addr) (msgValue : Nat)
    (targets : List Addr) (data : List Bytes) (amount : List Nat)
    (pre : EvmState) (ss : List Bool) (rs : List Bytes) (s1 : EvmState)
    (h1 : targets.length = data.length) (h2 : targets.length = amount.length)
    (hss : sender ≠ self) (hv : msgValue ≤ pre.balances sender)
    (hrun : runCalls w self (zip3 targets data amount)
        (transfer pre sender self msgValue) = .ok (ss, rs, s1)) :
    (s1.balances self < pre.balances self →
        executeBatchCall w sender self msgValue targets data amount pre
          = .error (.revertMsg
              "ETH exceeded: Insufficient funds for transactions") ∧
        (executeBatchOuter w sender self msgValue targets data amount pre).2
          = pre) ∧
    (pre.balances self ≤ s1.balances self →
        ∃ s2, executeBatchCall w sender self msgValue targets data amount pre
            = .ok (ss, rs, s2) ∧
          s2.balances sender
            = s1.balances sender + (s1.balances self - pre.balances self) ∧
          s2.balances self = pre.balances self) ∧
    ((∀ t d a s, (w t d a s).1 = true) →
      (∀ t d a s x, x = sender ∨ x = self →
          ((w t d a s).2.2).balances x = s.balances x) →
      (∀ t ∈ targets, t ≠ sender ∧ t ≠ self) →
      amount.sum ≤ msgValue →
        ∃ s2, executeBatchCall w sender self msgValue targets data amount pre
            = .ok (ss, rs, s2) ∧
          s2.balances sender = pre.balances sender - amount.sum ∧
          s2.balances self = pre.balances self) := by
  have hinit : (transfer pre sender self msgValue).balances self - msgValue
      = pre.balances self := by
    rw [transfer_balances_dst pre sender self msgValue (Ne.symm hss)]
    omega
  have hs0sender : (transfer pre sender self msgValue).balances sender
      = pre.balances sender - msgValue := by
    rw [transfer_balances_src pre sender self msgValue hss]
  have heval : executeBatchCall w sender self msgValue targets data amount pre
      = if pre.balances self > s1.balances self then
          .error (.revertMsg "ETH exceeded: Insufficient funds for transactions")
        else if s1.balances self - pre.balances self > 0 then
          .ok (ss, rs,
            transfer s1 self sender (s1.balances self - pre.balances self))
        else
          .ok (ss, rs, s1) := by
    unfold executeBatchCall executeBatch
    rw [if_neg (not_not_intro h1), if_neg (not_not_intro h2), hrun]
    simp only
    rw [hinit]
  have hpart2 : pre.balances self ≤ s1.balances self →
      ∃ s2, executeBatchCall w sender self msgValue targets data amount pre
          = .ok (ss, rs, s2) ∧
        s2.balances sender
          = s1.balances sender + (s1.balances self - pre.balances self) ∧
        s2.balances self = pre.balances self := by
    intro hge
    rw [heval, if_neg (by omega)]
    by_cases hdiff : s1.balances self - pre.balances self > 0
    · rw [if_pos hdiff]
      refine ⟨transfer s1 self sender (s1.balances self - pre.balances self),
        rfl, ?_, ?_⟩
      · rw [transfer_balances_dst s1 self sender _ hss]
      · rw [transfer_balances_src s1 self sender _ (Ne.symm hss)]
        omega
    · rw [if_neg hdiff]
      refine ⟨s1, rfl, by omega, by omega⟩
  refine ⟨?_, hpart2, ?_⟩
  · intro hlt
    have herr : executeBatchCall w sender self msgValue targets data amount pre
        = .error (.revertMsg
            "ETH exceeded: Insufficient funds for transactions") := by
      rw [heval, if_pos hlt]
    refine ⟨herr, ?_⟩
    unfold executeBatchOuter
    rw [herr]
  · intro hsucc hbal hts hsum
    have hl : ∀ p ∈ zip3 targets data amount, p.1 ≠ sender ∧ p.1 ≠ self :=
      fun p hp => hts p.1 (zip3_mem_fst targets data amount p hp)
    have hmap : ((zip3 targets data amount).map (fun p => p.2.2)).sum
        = amount.sum := by
      rw [zip3_map_amt targets data amount h1 h2]
    have hle : ((zip3 targets data amount).map (fun p => p.2.2)).sum ≤
        (transfer pre sender self msgValue).balances self := by
      rw [hmap, transfer_balances_dst pre sender self msgValue (Ne.symm hss)]
      omega
    obtain ⟨rs0, s1b, hrun0, hbself, hbsender⟩ :=
      runCalls_ok_balances w self sender hss hsucc hbal
        (zip3 targets data amount) hl (transfer pre sender self msgValue) hle
    rw [hrun] at hrun0
    simp only [Except.ok.injEq, Prod.mk.injEq] at hrun0
    obtain ⟨hssrep, hrs0, hs1b⟩ := hrun0
    rw [← hs1b] at hbself hbsender
    rw [hmap] at hbself
    rw [transfer_balances_dst pre sender self msgValue (Ne.symm hss)] at hbself
    rw [hs0sender] at hbsender
    have hge : pre.balances self ≤ s1.balances self := by
      rw [hbself]
      exact surplus_le_arith _ _ _ hsum
    have hfact : s1.balances sender + (s1.balances self - pre.balances self)
        = pre.balances sender - amount.sum := by
      rw [hbsender, hbself]
      exact surplus_refund_arith _ _ _ _ hsum hv
    obtain ⟨s2, hcall, hsnd, hslf⟩ := hpart2 hge
    exact ⟨s2, hcall, hsnd.trans hfact, hslf⟩

/-- Witness for C2: a concrete batch attaching 10 wei to one sub-call of
1 wei on `okWorld`; the run succeeds and the caller ends with exactly the
pre-batch balance minus the spent 1 wei (the 9 wei surplus refunded). -/
theorem executeBatch_refund_accounting_witness :
    (∃ s2, executeBatchCall okWorld 1 2 10 [3] [[0]] [1] preC
        = .ok ([true], [[]], s2) ∧
      s2.balances 1 = preC.balances 1 - ([1] : List Nat).sum ∧
      s2.balances 2 = preC.balances 2) ∧
    preC.balances 1 - ([1] : List Nat).sum = 99 :=
  ⟨(executeBatch_refund_accounting okWorld 1 2 10 [3] [[0]] [1] preC
      [true] [[]]
      (okState (runCalls okWorld 2 (zip3 [3] [[0]] [1])
        (transfer preC 1 2 10)) preC)
      rfl rfl (by decide) (by decide) rfl).2.2
    (fun _ _ _ _ => rfl) (fun _ _ _ _ _ _ => rfl) (by decide) (by decide),
   by decide⟩

/-! ### Lemmas about the SDK -/

theorem processApprovals_events (signer batchAddr : Addr) (net : Chain)
    (l : List (Addr × Nat)) :
    ∀ ev ∈ (processApprovals signer batchAddr net l).2,
      ∃ token amount, ev = NetEvent.submitApprove token amount := by
  induction l with
  | nil =>
    intro ev hev
    simp [processApprovals] at hev
  | cons hd tl ih =>
    intro ev hev
    obtain ⟨token, required⟩ := hd
    unfold processApprovals at hev
    by_cases hall : net.allowance token signer batchAddr < required
    · rw [if_pos hall] at hev
      by_cases hok : net.approveOk token required
      · rw [if_pos hok] at hev
        rcases hrec : processApprovals signer batchAddr net tl with ⟨e2, evs2⟩
        rw [hrec] at hev
        simp at hev
        rcases hev with hev | hev
        · exact ⟨token, required, hev⟩
        · refine ih ev ?_
          rw [hrec]
          exact hev
      · rw [if_neg hok] at hev
        simp at hev
        exact ⟨token, required, hev⟩
    · rw [if_neg hall] at hev
      exact ih ev hev

theorem beforeBatch_cons_approve (token : Addr) (amount : Nat)
    (tr : List NetEvent) :
    beforeBatch (NetEvent.submitApprove token amount :: tr)
      = NetEvent.submitApprove token amount :: beforeBatch tr := rfl

theorem beforeBatch_nil : beforeBatch [] = [] := rfl

theorem beforeBatch_append (evs rest : List NetEvent)
    (h : ∀ ev ∈ evs, ∃ token amount, ev = NetEvent.submitApprove token amount) :
    beforeBatch (evs ++ rest) = evs ++ beforeBatch rest := by
  induction evs with
  | nil => simp
  | cons e tl ih =>
    obtain ⟨token, amount, he⟩ := h e (by simp)
    subst he
    have htl : ∀ ev ∈ tl, ∃ token amount,
        ev = NetEvent.submitApprove token amount :=
      fun ev hev => h ev (List.mem_cons_of_mem _ hev)
    rw [List.cons_append, beforeBatch_cons_approve, ih htl, List.cons_append]

theorem executeBatchTransaction_eq_empty (signer batchAddr : Addr)
    (net : Chain) (s : SDKState) (hemp : s.transactionList = []) :
    executeBatchTransaction signer batchAddr net s
      = (some .emptyList, s, []) := by
  unfold executeBatchTransaction
  rw [if_pos hemp]

theorem executeBatchTransaction_eq_approveFail (signer batchAddr : Addr)
    (net : Chain) (s : SDKState) (e : SDKError) (evs : List NetEvent)
    (hemp : ¬ s.transactionList = [])
    (hp : processApprovals signer batchAddr net s.approvalTransactionsList
      = (some e, evs)) :
    executeBatchTransaction signer batchAddr net s = (some e, s, evs) := by
  unfold executeBatchTransaction
  rw [if_neg hemp, hp]

theorem executeBatchTransaction_eq_run (signer batchAddr : Addr)
    (net : Chain) (s : SDKState) (evs : List NetEvent)
    (hemp : ¬ s.transactionList = [])
    (hp : processApprovals signer batchAddr net s.approvalTransactionsList
      = (none, evs)) :
    executeBatchTransaction signer batchAddr net s = batchPhase net s evs := by
  unfold executeBatchTransaction
  rw [if_neg hemp, hp]

/-- Exhaustive case analysis of one `executeBatchTransaction` run. -/
theorem executeBatchTransaction_cases (signer batchAddr : Addr) (net : Chain)
    (s : SDKState) :
    (executeBatchTransaction signer batchAddr net s
        = (some .emptyList, s, [])) ∨
    (∃ e evs, executeBatchTransaction signer batchAddr net s
        = (some e, s, evs) ∧
      (∀ ev ∈ evs, ∃ token amount,
          ev = NetEvent.submitApprove token amount)) ∨
    (∃ evs, executeBatchTransaction signer batchAddr net s
        = batchPhase net s evs ∧
      (∀ ev ∈ evs, ∃ token amount,
          ev = NetEvent.submitApprove token amount)) := by
  by_cases hemp : s.transactionList = []
  · exact Or.inl (executeBatchTransaction_eq_empty signer batchAddr net s hemp)
  · rcases hp : processApprovals signer batchAddr net
        s.approvalTransactionsList with ⟨e1, evs⟩
    have hevs : ∀ ev ∈ evs, ∃ token amount,
        ev = NetEvent.submitApprove token amount := by
      intro ev hev
      refine processApprovals_events signer batchAddr net
        s.approvalTransactionsList ev ?_
      rw [hp]
      exact hev
    match e1 with
    | some e =>
      exact Or.inr (Or.inl ⟨e, evs,
        executeBatchTransaction_eq_approveFail signer batchAddr net s e evs
          hemp hp, hevs⟩)
    | none =>
      exact Or.inr (Or.inr ⟨evs,
        executeBatchTransaction_eq_run signer batchAddr net s evs hemp hp,
        hevs⟩)

/-- Exhaustive case analysis of the batch phase. -/
theorem batchPhase_cases (net : Chain) (s : SDKState) (evs : List NetEvent) :
    batchPhase net s evs
        = (none, clearTransactionList s,
            evs ++ [submitBatchEvent s, .waitBatch]) ∨
    batchPhase net s evs
        = (some .waitFailed, s, evs ++ [submitBatchEvent s]) ∨
    batchPhase net s evs = (some .batchSubmitFailed, s, evs) := by
  unfold batchPhase
  by_cases hb : net.batchOk
  · by_cases hw : net.waitOk
    · rw [if_pos hb, if_pos hw]
      exact Or.inl rfl
    · rw [if_pos hb, if_neg hw]
      exact Or.inr (Or.inl rfl)
  · rw [if_neg hb]
    exact Or.inr (Or.inr rfl)

theorem addTransactionToList_approvals (s : SDKState) (target : Addr)
    (value : Nat) (data : Bytes) :
    (addTransactionToList s target value data).approvalTransactionsList
      = s.approvalTransactionsList := by
  unfold addTransactionToList
  by_cases hm : (⟨target, value, data⟩ : Txn) ∈ s.transactionList
  · rw [if_pos hm]
  · rw [if_neg hm]

theorem executeBatchTransaction_approvals (signer batchAddr : Addr)
    (net : Chain) (s : SDKState) :
    (executeBatchTransaction signer batchAddr net s).2.1.approvalTransactionsList
      = s.approvalTransactionsList := by
  rcases executeBatchTransaction_cases signer batchAddr net s with
    heq | ⟨e, evs, heq, _⟩ | ⟨evs, heq, _⟩
  · rw [heq]
  · rw [heq]
  · rw [heq]
    rcases batchPhase_cases net s evs with hc | hc | hc
    · rw [hc]
      rfl
    · rw [hc]
    · rw [hc]

theorem lookupApproval_bump_self (l : List (Addr × Nat)) (token : Addr)
    (v : Nat) :
    lookupApproval (bumpApproval l token v) token
      = lookupApproval l token + v := by
  induction l with
  | nil => simp [bumpApproval, lookupApproval]
  | cons hd tl ih =>
    obtain ⟨t, a⟩ := hd
    by_cases ht : t = token
    · subst ht
      simp [bumpApproval, lookupApproval]
    · simp [bumpApproval, lookupApproval, ht, ih]

theorem lookupApproval_bump_other (l : List (Addr × Nat)) (token token2 : Addr)
    (v : Nat) (h : token2 ≠ token) :
    lookupApproval (bumpApproval l token v) token2
      = lookupApproval l token2 := by
  induction l with
  | nil => simp [bumpApproval, lookupApproval, Ne.symm h]
  | cons hd tl ih =>
    obtain ⟨t, a⟩ := hd
    by_cases ht : t = token
    · subst ht
      simp [bumpApproval, lookupApproval, Ne.symm h]
    · simp [bumpApproval, lookupApproval, ht, ih]

theorem lookupApproval_bump_le (l : List (Addr × Nat)) (token token2 : Addr)
    (v : Nat) :
    lookupApproval l token2 ≤ lookupApproval (bumpApproval l token v) token2 := by
  by_cases h : token2 = token
  · subst h
    rw [lookupApproval_bump_self]
    exact Nat.le_add_right _ _
  · rw [lookupApproval_bump_other l token token2 v h]

/-- Traces splitting into approval submissions followed by a tail free of
approval submissions and approval waits satisfy the amended C4 property. -/
theorem approvals_before_batch_of_shape (evs tail tr : List NetEvent)
    (htr : tr = evs ++ tail)
    (hevs : ∀ ev ∈ evs, ∃ token amount,
        ev = NetEvent.submitApprove token amount)
    (htail : ∀ token amount, NetEvent.submitApprove token amount ∉ tail)
    (hwait : ∀ token, NetEvent.waitApprove token ∉ tail) :
    (∀ token amount, NetEvent.submitApprove token amount ∈ tr →
        NetEvent.submitApprove token amount ∈ beforeBatch tr) ∧
    (∀ token, NetEvent.waitApprove token ∉ tr) := by
  subst htr
  constructor
  · intro token amount hmem
    rw [beforeBatch_append evs tail hevs]
    rcases List.mem_append.mp hmem with hx | hx
    · exact List.mem_append.mpr (Or.inl hx)
    · exact absurd hx (htail token amount)
  · intro token hmem
    rcases List.mem_append.mp hmem with hx | hx
    · obtain ⟨t2, a2, he⟩ := hevs _ hx
      exact NetEvent.noConfusion he
    · exact hwait token hx

/-- C4 counterexample: a concrete successful run of `executeBatchTransaction`
in which one token needs approval; the approval transaction is submitted, but
its confirmation is never awaited, so nothing guarantees its effect is
visible on chain before the batch call is submitted: the specification
predicate `ApprovalsConfirmedBeforeBatch` fails on the run's trace. -/
theorem approvals_confirmed_counterexample :
    (executeBatchTransaction 1 2 netC sC).1 = none ∧
    ¬ ApprovalsConfirmedBeforeBatch
        (executeBatchTransaction 1 2 netC sC).2.2 := by
  constructor
  · rfl
  · intro hcl
    have h1 : NetEvent.submitApprove 9 5 ∈
        beforeBatch (executeBatchTransaction 1 2 netC sC).2.2 := by decide
    have h2 := hcl _ h1 9 5 rfl
    revert h2
    decide

/-- C4 amended: in every run of `executeBatchTransaction`, every approval
submission occurs strictly before the batch submission in the network trace,
but the SDK never waits on an approval transaction, so approvals are
submitted — not confirmed — before the batch call is submitted. -/
theorem approvals_submitted_before_batch
    (signer batchAddr : Addr) (net : Chain) (s : SDKState) :
    (∀ token amount,
      NetEvent.submitApprove token amount ∈
          (executeBatchTransaction signer batchAddr net s).2.2 →
      NetEvent.submitApprove token amount ∈
          beforeBatch (executeBatchTransaction signer batchAddr net s).2.2) ∧
    (∀ token, NetEvent.waitApprove token ∉
        (executeBatchTransaction signer batchAddr net s).2.2) := by
  rcases executeBatchTransaction_cases signer batchAddr net s with
    heq | ⟨e, evs, heq, hevs⟩ | ⟨evs, heq, hevs⟩
  · refine approvals_before_batch_of_shape [] [] _ ?_ ?_ ?_ ?_
    · rw [heq]
      rfl
    · intro ev hev
      simp at hev
    · intro token amount hmem
      simp at hmem
    · intro token hmem
      simp at hmem
  · refine approvals_before_batch_of_shape evs [] _ ?_ hevs ?_ ?_
    · rw [heq]
      simp
    · intro token amount hmem
      simp at hmem
    · intro token hmem
      simp at hmem
  · rcases batchPhase_cases net s evs with hc | hc | hc
    · refine approvals_before_batch_of_shape evs
        [submitBatchEvent s, .waitBatch] _ ?_ hevs ?_ ?_
      · rw [heq, hc]
      · intro token amount hmem
        simp [submitBatchEvent] at hmem
      · intro token hmem
        simp [submitBatchEvent] at hmem
    · refine approvals_before_batch_of_shape evs [submitBatchEvent s] _
        ?_ hevs ?_ ?_
      · rw [heq, hc]
      · intro token amount hmem
        simp [submitBatchEvent] at hmem
      · intro token hmem
        simp [submitBatchEvent] at hmem
    · refine approvals_before_batch_of_shape evs [] _ ?_ hevs ?_ ?_
      · rw [heq, hc]
        simp
      · intro token amount hmem
        simp at hmem
      · intro token hmem
        simp at hmem

/-- Witness for the amended C4: in the concrete successful run on `netC` and
`sC`, the one approval submission indeed precedes the batch submission. -/
theorem approvals_submitted_before_batch_witness :
    NetEvent.submitApprove 9 5 ∈
      beforeBatch (executeBatchTransaction 1 2 netC sC).2.2 :=
  (approvals_submitted_before_batch 1 2 netC sC).1 9 5 (by decide)

/-- C7: `executeBatchTransaction` clears the pending transaction list exactly
when the batch transaction confirms successfully (leaving the approval
accumulator untouched); on any failure — empty list, approval failure, batch
submission failure, or confirmation failure — the whole SDK state, and in
particular the pending list, is left intact so the caller may retry. -/
theorem executeBatchTransaction_pending_list
    (signer batchAddr : Addr) (net : Chain) (s : SDKState) :
    ((executeBatchTransaction signer batchAddr net s).1 = none →
      (executeBatchTransaction signer batchAddr net s).2.1.transactionList
          = [] ∧
      (executeBatchTransaction signer batchAddr net s).2.1.approvalTransactionsList
          = s.approvalTransactionsList) ∧
    (∀ err, (executeBatchTransaction signer batchAddr net s).1 = some err →
      (executeBatchTransaction signer batchAddr net s).2.1 = s) := by
  rcases executeBatchTransaction_cases signer batchAddr net s with
    heq | ⟨e, evs, heq, _⟩ | ⟨evs, heq, _⟩
  · rw [heq]
    exact ⟨fun hn => Option.noConfusion hn, fun err _ => rfl⟩
  · rw [heq]
    exact ⟨fun hn => Option.noConfusion hn, fun err _ => rfl⟩
  · rw [heq]
    rcases batchPhase_cases net s evs with hc | hc | hc
    · rw [hc]
      exact ⟨fun _ => ⟨rfl, rfl⟩, fun err h => Option.noConfusion h⟩
    · rw [hc]
      exact ⟨fun hn => Option.noConfusion hn, fun err _ => rfl⟩
    · rw [hc]
      exact ⟨fun hn => Option.noConfusion hn, fun err _ => rfl⟩

/-- Witness for C7: on the all-success oracle `netC` the pending list of `sC`
is cleared with approvals intact; on `netCFail` (batch submission rejected)
the state is returned unchanged. -/
theorem executeBatchTransaction_pending_list_witness :
    ((executeBatchTransaction 1 2 netC sC).2.1.transactionList = [] ∧
      (executeBatchTransaction 1 2 netC sC).2.1.approvalTransactionsList
        = sC.approvalTransactionsList) ∧
    (executeBatchTransaction 1 2 netCFail sC).2.1 = sC :=
  ⟨(executeBatchTransaction_pending_list 1 2 netC sC).1 rfl,
   (executeBatchTransaction_pending_list 1 2 netCFail sC).2
     SDKError.batchSubmitFailed rfl⟩
theorem addTransactionToList_mem (s : SDKState) (target : Addr) (value : Nat)
    (data : Bytes) (hm : (⟨target, value, data⟩ : Txn) ∈ s.transactionList) :
    addTransactionToList s target value data = s := by
  unfold addTransactionToList
  rw [if_pos hm]

theorem addTransactionToList_not_mem (s : SDKState) (target : Addr)
    (value : Nat) (data : Bytes)
    (hm : (⟨target, value, data⟩ : Txn) ∉ s.transactionList) :
    addTransactionToList s target value data
      = { s with transactionList :=
            s.transactionList ++ [⟨target, value, data⟩] } := by
  unfold addTransactionToList
  rw [if_neg hm]

/-- C8 counterexample: when the pending list already holds the triple, the
two adds are no-ops but the remove deletes the pre-existing entry, so
add-add-remove does not return the original list. -/
theorem add_add_remove_counterexample :
    removeTransactionFromList
        (addTransactionToList (addTransactionToList dupState 1 2 [3]) 1 2 [3])
        1 2 [3]
      ≠ dupState := by decide

/-- C8 amended: pending-list add is idempotent — starting from any list
holding the triple at most once (as every list reachable through the SDK
does), adding the identical `(target, value, data)` triple twice leaves
exactly one entry for it — and when the triple is not already present,
two adds followed by one remove of the same triple return exactly the list
prior to either add. -/
theorem addTransaction_idempotent_remove_inverse
    (s : SDKState) (target : Addr) (value : Nat) (data : Bytes) :
    (s.transactionList.count ⟨target, value, data⟩ ≤ 1 →
      (addTransactionToList (addTransactionToList s target value data)
          target value data).transactionList.count ⟨target, value, data⟩ = 1) ∧
    ((⟨target, value, data⟩ : Txn) ∉ s.transactionList →
      removeTransactionFromList
          (addTransactionToList (addTransactionToList s target value data)
            target value data) target value data
        = s) := by
  constructor
  · intro hcount
    by_cases hm : (⟨target, value, data⟩ : Txn) ∈ s.transactionList
    · rw [addTransactionToList_mem s target value data hm,
        addTransactionToList_mem s target value data hm]
      have hpos : 0 < s.transactionList.count ⟨target, value, data⟩ :=
        List.count_pos_iff.mpr hm
      omega
    · rw [addTransactionToList_not_mem s target value data hm]
      rw [addTransactionToList_mem _ target value data (by simp)]
      show (s.transactionList ++ ([⟨target, value, data⟩] : List Txn)).count
          (⟨target, value, data⟩ : Txn) = 1
      rw [List.count_append, List.count_eq_zero_of_not_mem hm]
      simp [List.count_singleton']
  · intro hm
    rw [addTransactionToList_not_mem s target value data hm]
    rw [addTransactionToList_mem _ target value data (by simp)]
    have hfilter : ∀ l : List Txn, (⟨target, value, data⟩ : Txn) ∉ l →
        l.filter (fun tx => ¬(tx = (⟨target, value, data⟩ : Txn))) = l := by
      intro l hl
      rw [List.filter_eq_self]
      intro a ha
      have hne : a ≠ ⟨target, value, data⟩ := fun hq => hl (hq ▸ ha)
      simp [hne]
    unfold removeTransactionFromList
    show ({ s with transactionList :=
        ((s.transactionList ++ ([⟨target, value, data⟩] : List Txn)).filter
          (fun tx => ¬(tx = (⟨target, value, data⟩ : Txn)))) } : SDKState) = s
    rw [List.filter_append, hfilter s.transactionList hm]
    simp

/-- Witness for the amended C8: starting from the empty SDK state, two adds
of the triple `(1, 2, [3])` leave one entry, and a subsequent remove restores
the empty state. -/
theorem addTransaction_idempotent_remove_inverse_witness :
    (addTransactionToList (addTransactionToList emptySDK 1 2 [3]) 1 2
        [3]).transactionList.count ⟨1, 2, [3]⟩ = 1 ∧
    removeTransactionFromList
        (addTransactionToList (addTransactionToList emptySDK 1 2 [3]) 1 2 [3])
        1 2 [3]
      = emptySDK :=
  ⟨(addTransaction_idempotent_remove_inverse emptySDK 1 2 [3]).1 (by decide),
   (addTransaction_idempotent_remove_inverse emptySDK 1 2 [3]).2 (by decide)⟩

theorem addERC20Transfer_approvals (signer : Addr) (s : SDKState)
    (tokenAddress target : Addr) (value : Nat) :
    (addERC20Transfer signer s tokenAddress target value).approvalTransactionsList
      = bumpApproval s.approvalTransactionsList tokenAddress value := by
  unfold addERC20Transfer
  rw [addTransactionToList_approvals]

theorem addERC20Approve_approvals (s : SDKState)
    (tokenAddress target : Addr) (value : Nat) :
    (addERC20Approve s tokenAddress target value).approvalTransactionsList
      = bumpApproval s.approvalTransactionsList tokenAddress value := by
  unfold addERC20Approve
  rw [addTransactionToList_approvals]

/-- C10: the per-token approval accumulator only ever grows and is never
reset: every SDK operation leaves each token's accumulated amount at least
as large as before; `addERC20Transfer` and `addERC20Approve` each increase
the token's amount by exactly the given value; and `clearTransactionList`
and `executeBatchTransaction` (successful or not) leave the accumulator
unchanged, so approval requirements carry over into every later run. -/
theorem approval_accumulator_monotone :
    (∀ (op : SDKOp) (s : SDKState) (token : Addr),
        lookupApproval s.approvalTransactionsList token ≤
          lookupApproval (applySDKOp op s).approvalTransactionsList token) ∧
    (∀ (signer : Addr) (s : SDKState) (tokenAddress target : Addr)
        (value : Nat),
        lookupApproval
            (addERC20Transfer signer s tokenAddress target
              value).approvalTransactionsList tokenAddress
          = lookupApproval s.approvalTransactionsList tokenAddress + value) ∧
    (∀ (s : SDKState) (tokenAddress target : Addr) (value : Nat),
        lookupApproval
            (addERC20Approve s tokenAddress target
              value).approvalTransactionsList tokenAddress
          = lookupApproval s.approvalTransactionsList tokenAddress + value) ∧
    (∀ s : SDKState,
        (clearTransactionList s).approvalTransactionsList
          = s.approvalTransactionsList) ∧
    (∀ (signer batchAddr : Addr) (net : Chain) (s : SDKState),
        (executeBatchTransaction signer batchAddr net
            s).2.1.approvalTransactionsList
          = s.approvalTransactionsList) := by
  refine ⟨?_, ?_, ?_, fun s => rfl, ?_⟩
  · intro op s token
    cases op with
    | addTx target value data =>
      show lookupApproval s.approvalTransactionsList token ≤
        lookupApproval
          (addTransactionToList s target value data).approvalTransactionsList
          token
      rw [addTransactionToList_approvals]
    | addTransfer signer tokenAddress target value =>
      show lookupApproval s.approvalTransactionsList token ≤
        lookupApproval
          (addERC20Transfer signer s tokenAddress target
            value).approvalTransactionsList token
      rw [addERC20Transfer_approvals]
      exact lookupApproval_bump_le _ _ _ _
    | addApprove tokenAddress target value =>
      show lookupApproval s.approvalTransactionsList token ≤
        lookupApproval
          (addERC20Approve s tokenAddress target
            value).approvalTransactionsList token
      rw [addERC20Approve_approvals]
      exact lookupApproval_bump_le _ _ _ _
    | removeTx target value data => exact Nat.le_refl _
    | clearList => exact Nat.le_refl _
    | execute signer batchAddr net =>
      show lookupApproval s.approvalTransactionsList token ≤
        lookupApproval
          (executeBatchTransaction signer batchAddr net
            s).2.1.approvalTransactionsList token
      rw [executeBatchTransaction_approvals]
  · intro signer s tokenAddress target value
    rw [addERC20Transfer_approvals, lookupApproval_bump_self]
  · intro s tokenAddress target value
    rw [addERC20Approve_approvals, lookupApproval_bump_self]
  · intro signer batchAddr net s
    rw [executeBatchTransaction_approvals]

end BatchTx
